import Mathlib

/-!
Verification development for the `hex_math` hexagonal-grid geometry kernel.

The source is a Rust library; the embedding below translates its current
modules (`structs/point.rs`, `enums/direction.rs`, `traits/travel/travel.rs`,
`distance/*.rs`, `rotate/rotate.rs`, `ring/base.rs`, `range/*.rs`,
`traits/is_point_map.rs`, `traits/has_walls.rs`, `line/*.rs`,
`structs/line/iterator.rs`) into Lean.

Machine integers (`i32`) are modelled as `ℤ` (no claim here exercises
integer overflow).  Rust's truncating division and remainder are modelled
with `Int.tdiv`/`Int.tmod`.  `HashSet<Point>` is modelled as `Finset Point`
(only set contents matter to every claim).  `HashMap<Point, Prism>` is
modelled as a lookup function `Point → Option Prism`.  Code paths that can
`panic!` are modelled with `Option`.

The line tracer and cube rounding work on `f32`.  They are modelled
bit-exactly for the IEEE-754 binary32 format on the normal range
(magnitudes in `[2⁻¹²⁷, 2⁶³)`, which covers every value arising in the
claims): a float value is represented by an exact rational `Qv`
(a numerator/denominator pair of integers), and every arithmetic operation
is followed by `fround`, rounding the exact result to 24 significant bits
with ties to even, exactly as IEEE round-to-nearest-even does.
-/

namespace HexMath

set_option maxRecDepth 1000000

/-- Hex-grid point with axial coordinates `q`, `r` and height `t`
(`structs/point.rs`: `pub struct Point<T = i32>(pub T, pub T, pub T)`). -/
structure Point where
  q : ℤ
  r : ℤ
  t : ℤ
deriving DecidableEq, Repr

/-- The derived cube coordinate `s = -q - r` (`Point::s`). -/
def Point.s (p : Point) : ℤ := -p.q - p.r

/-- Componentwise point addition (`impl Add for &Point`). -/
instance : Add Point := ⟨fun a b => ⟨a.q + b.q, a.r + b.r, a.t + b.t⟩⟩

/-- Componentwise point subtraction (`impl Sub for &Point`). -/
instance : Sub Point := ⟨fun a b => ⟨a.q - b.q, a.r - b.r, a.t - b.t⟩⟩

/-- The eight compass directions (`enums/direction.rs`). -/
inductive Direction where
  | east
  | southeast
  | southwest
  | west
  | northwest
  | northeast
  | up
  | down
deriving DecidableEq, Repr

/-- `Direction::opposite` (`enums/direction.rs`). -/
def Direction.opposite : Direction → Direction
  | .east => .west
  | .southeast => .northwest
  | .southwest => .northeast
  | .west => .east
  | .northwest => .southeast
  | .northeast => .southwest
  | .up => .down
  | .down => .up

/-- Single-axis translation (`traits/travel/travel.rs`: `Travel::travel`). -/
def travel (p : Point) (d : Direction) (units : ℤ) : Point :=
  match d with
  | .east => ⟨p.q + units, p.r, p.t⟩
  | .southeast => ⟨p.q, p.r + units, p.t⟩
  | .southwest => ⟨p.q - units, p.r + units, p.t⟩
  | .west => ⟨p.q - units, p.r, p.t⟩
  | .northwest => ⟨p.q, p.r - units, p.t⟩
  | .northeast => ⟨p.q + units, p.r - units, p.t⟩
  | .up => ⟨p.q, p.r, p.t + units⟩
  | .down => ⟨p.q, p.r, p.t - units⟩

/-- Planar cube distance (`distance/base.rs`: `base`); Rust `/` on `i32`
truncates, hence `Int.tdiv`. -/
def baseDistance (point other : Point) : ℤ :=
  let diff := point - other
  Int.tdiv (|diff.q| + |diff.r| + |diff.s|) 2

/-- Height distance (`distance/height.rs`: `height`). -/
def heightDistance (point other : Point) : ℤ :=
  |point.t - other.t|

/-- Full 3D distance (`distance/with_height.rs`: `with_height`). -/
def withHeight (point other : Point) : ℤ :=
  baseDistance point other + heightDistance point other

/-- Rotation about a center by `times` sixths of a turn
(`rotate/rotate.rs`: `rotate`).  Rust `%` on `i32` truncates, hence
`Int.tmod`.  The `match` in the source has a `panic!` arm that is
unreachable because the normalized `times` lies in `[0, 6)`; it is modelled
with `Option`, `none` standing for the panic. -/
def rotate (point center : Point) (times : ℤ) : Option Point :=
  if point = center then some point
  else
    let rp := point - center
    let q := rp.q
    let r := rp.r
    let t := rp.t
    let s := rp.s
    let times1 := Int.tmod times 6
    let times2 := if times1 < 0 then times1 + 6 else times1
    let rotated : Option Point :=
      if times2 = 0 then some ⟨q, r, t⟩
      else if times2 = 1 then some ⟨-r, -s, t⟩
      else if times2 = 2 then some ⟨s, q, t⟩
      else if times2 = 3 then some ⟨-q, -r, t⟩
      else if times2 = 4 then some ⟨r, s, t⟩
      else if times2 = 5 then some ⟨-s, -q, t⟩
      else none
    rotated.map (fun rp => rp + center)

/-- A point together with its four stored wall strengths
(`structs/prism.rs`: `Prism`). -/
structure Prism where
  point : Point
  east : ℤ
  southeast : ℤ
  southwest : ℤ
  down : ℤ
deriving DecidableEq, Repr

/-- `HasWalls::has_wall` (`traits/has_walls.rs`): only the four stored
directions can report a wall; any other direction yields `false`. -/
def Prism.hasWall (p : Prism) (d : Direction) : Bool :=
  match d with
  | .east => decide (0 < p.east)
  | .southeast => decide (0 < p.southeast)
  | .southwest => decide (0 < p.southwest)
  | .down => decide (0 < p.down)
  | _ => false

/-- The occlusion map, `HashMap<Point, Prism>` modelled as a lookup. -/
def WallMap : Type := Point → Option Prism

/-- `IsPointMap::has_wall` (`traits/is_point_map.rs`). -/
def mapHasWall (m : WallMap) (p : Point) (d : Direction) : Bool :=
  match m p with
  | some prism => prism.hasWall d
  | none => false

/-- The direction decision of `Direction::from((&p0, &p1))`
(`enums/direction.rs`), which looks only at coordinate signa; the
`panic!()` fallback arm is modelled as `none`.  It is factored through the
coordinate difference. -/
def dirFromDiff (diff : Point) : Option Direction :=
  if diff.t.sign = 1 then some .up
  else if diff.t.sign = -1 then some .down
  else
    let dq := diff.q.sign
    let dr := diff.r.sign
    if dq = 1 ∧ dr = 0 then some .east
    else if dq = 0 ∧ dr = 1 then some .southeast
    else if dq = -1 ∧ dr = 1 then some .southwest
    else if dq = -1 ∧ dr = 0 then some .west
    else if dq = 0 ∧ dr = -1 then some .northwest
    else if dq = 1 ∧ dr = -1 then some .northeast
    else none

/-- `Direction::from((&p0, &p1))`: direction of the difference `p1 - p0`. -/
def dirFromTo (p0 p1 : Point) : Option Direction :=
  dirFromDiff (p1 - p0)

/-- `IsPointMap::has_wall_between` (`traits/is_point_map.rs`); `none`
models the panic reachable through `Direction::from`. -/
def hasWallBetween (m : WallMap) (p0 p1 : Point) : Option Bool :=
  if p0 = p1 then some false
  else
    match dirFromTo p0 p1 with
    | some d => some (mapHasWall m p0 d || mapHasWall m p1 d.opposite)
    | none => none

/-- The eight coordinate offsets of grid-adjacent cells: the six planar
unit steps and the two unit vertical steps. -/
def unitOffsets : List Point :=
  [⟨1, 0, 0⟩, ⟨0, 1, 0⟩, ⟨-1, 1, 0⟩, ⟨-1, 0, 0⟩, ⟨0, -1, 0⟩, ⟨1, -1, 0⟩,
   ⟨0, 0, 1⟩, ⟨0, 0, -1⟩]

/-- Two cells are grid-adjacent when they differ by one planar unit step or
one unit vertical step. -/
def Adjacent (a b : Point) : Prop := (b - a) ∈ unitOffsets

instance (a b : Point) : Decidable (Adjacent a b) := by
  unfold Adjacent; infer_instance

/-- Componentwise negation (proof-side helper). -/
def negP (p : Point) : Point := ⟨-p.q, -p.r, -p.t⟩

/-- `range::base` (`range/base.rs`): the planar hexagon of the given
radius, enumerated by the double-bounded `dq`/`ds` loops. -/
def rangeBase (p : Point) (range : ℤ) : Finset Point :=
  (Finset.Icc (-range) range).biUnion fun dq =>
    (Finset.Icc (max (-range) (-dq - range)) (min range (-dq + range))).image
      fun ds => p + ⟨dq, -dq - ds, 0⟩

/-- `range::of` (`range/of.rs`): planar slices shrinking with height. -/
def rangeOf (p : Point) (range : ℤ) : Finset Point :=
  rangeBase p range ∪
    (Finset.Icc 1 range).biUnion fun i =>
      rangeBase (travel p .up i) (range - i) ∪
        rangeBase (travel p .down i) (range - i)

/-- One round of `range::flood_generic` (`range/flood_generic.rs`): the
points found from the current fringe.  `none` models the panic that a
`has_wall_between` query on an unvisited neighbour could raise. -/
def floodRound (m : WallMap) (rangeFn : Point → ℤ → Finset Point)
    (visited fringes : Finset Point) : Option (Finset Point) :=
  if ∀ pt ∈ fringes, ∀ n ∈ rangeFn pt 1, n ∉ visited →
      (hasWallBetween m pt n).isSome then
    some (fringes.biUnion fun pt =>
      (rangeFn pt 1).filter fun n =>
        n ∉ visited ∧ hasWallBetween m pt n = some false)
  else none

/-- The `for _ in 0 .. range` loop of `range::flood_generic`, followed by
the final `visited.extend(fringes)`. -/
def floodLoop (m : WallMap) (rangeFn : Point → ℤ → Finset Point) :
    ℕ → Finset Point → Finset Point → Option (Finset Point)
  | 0, visited, fringes => some (visited ∪ fringes)
  | k + 1, visited, fringes =>
    match floodRound m rangeFn visited fringes with
    | none => none
    | some found => floodLoop m rangeFn k (visited ∪ fringes) found

/-- `range::flood_generic` (`range/flood_generic.rs`). -/
def floodGeneric (m : WallMap) (rangeFn : Point → ℤ → Finset Point)
    (start : Point) (range : ℤ) : Option (Finset Point) :=
  floodLoop m rangeFn range.toNat ∅ {start}

/-- `range::flood` (`range/flood.rs`): flood fill with 3D neighbours. -/
def flood (m : WallMap) (start : Point) (range : ℤ) : Option (Finset Point) :=
  floodGeneric m rangeOf start range

/-- Reachability within `n` single-step neighbour moves starting at `p`,
where no move crosses an edge for which the wall map reports a wall of
strength ≥ 1 between the two adjacent cells. -/
inductive ReachN (m : WallMap) (p : Point) : ℕ → Point → Prop where
  | refl (n : ℕ) : ReachN m p n p
  | step {n : ℕ} {x y : Point} (hx : ReachN m p n x) (hadj : Adjacent x y)
      (hw : hasWallBetween m x y = some false) : ReachN m p (n + 1) y

/-- One leg of the `ring::base` walk (`ring/base.rs`, inner `for` loop):
record the position before each of `n` unit steps in direction `d`, and
return both the recorded cells and the final position. -/
def legWalk (pos : Point) (d : Direction) : ℕ → List Point × Point
  | 0 => ([], pos)
  | n + 1 =>
    let next := travel pos d 1
    let rest := legWalk next d n
    (pos :: rest.1, rest.2)

/-- The first six directions of `Direction::to_vec()`, the clockwise leg
order of `ring::base`. -/
def ringDirs : List Direction :=
  [.east, .southeast, .southwest, .west, .northwest, .northeast]

/-- The outer `for direction in ...take(6)` loop of `ring::base`. -/
def ringWalk (pos : Point) (n : ℕ) : List Direction → List Point
  | [] => []
  | d :: ds =>
    let leg := legWalk pos d n
    leg.1 ++ ringWalk leg.2 n ds

/-- The cells recorded by `ring::base`, starting `range` steps northwest of
the center; the `0..range` loop runs `range.toNat` times. -/
def ringBaseList (p : Point) (range : ℤ) : List Point :=
  ringWalk (travel p .northwest range) range.toNat ringDirs

/-- `ring::base` (`ring/base.rs`): the resulting `HashSet`. -/
def ringBase (p : Point) (range : ℤ) : Finset Point :=
  (ringBaseList p range).toFinset

/-- Exact rational scratch value for the bit-level `f32` model: a
numerator/denominator pair with positive denominator.  Every `f32` value
occurring in the tracer is represented by the `Qv` holding its exact
rational value. -/
structure Qv where
  num : ℤ
  den : ℤ
  den_pos : 0 < den

/-- The exact value of an integer. -/
def Qv.ofInt (n : ℤ) : Qv := ⟨n, 1, one_pos⟩

def Qv.add (a b : Qv) : Qv :=
  ⟨a.num * b.den + b.num * a.den, a.den * b.den, mul_pos a.den_pos b.den_pos⟩

def Qv.neg (a : Qv) : Qv := ⟨-a.num, a.den, a.den_pos⟩

def Qv.sub (a b : Qv) : Qv := a.add b.neg

def Qv.mul (a b : Qv) : Qv :=
  ⟨a.num * b.num, a.den * b.den, mul_pos a.den_pos b.den_pos⟩

def Qv.abs (a : Qv) : Qv := ⟨|a.num|, a.den, a.den_pos⟩

def Qv.inv (a : Qv) : Qv :=
  if h : 0 < a.num then ⟨a.den, a.num, h⟩
  else if h2 : a.num < 0 then ⟨-a.den, -a.num, by omega⟩
  else ⟨0, 1, one_pos⟩

/-- Comparison by cross-multiplication (valid since denominators are
positive); `f32` comparison of the represented values is exact. -/
def Qv.blt (a b : Qv) : Bool := decide (a.num * b.den < b.num * a.den)

/-- Mathematical floor (euclidean division by the positive denominator). -/
def Qv.floor (a : Qv) : ℤ := a.num / a.den

def Qv.half : Qv := ⟨1, 2, two_pos⟩

/-- Exact multiplication by `2 ^ k`. -/
def Qv.mulPow2 (a : Qv) (k : ℤ) : Qv :=
  if 0 ≤ k then ⟨a.num * 2 ^ k.toNat, a.den, a.den_pos⟩
  else ⟨a.num, a.den * 2 ^ (-k).toNat, mul_pos a.den_pos (pow_pos two_pos _)⟩

def pow2 (k : ℤ) : Qv := Qv.mulPow2 (Qv.ofInt 1) k

/-- Downward search for the binary exponent: starting from exponent `e`,
step down while `a < 2 ^ e`, so that on termination
`2 ^ result ≤ a < 2 ^ (result + 1)` (for positive `a` in range). -/
def expSearch (a : Qv) : ℕ → ℤ → ℤ
  | 0, e => e
  | fuel + 1, e => if a.blt (pow2 e) then expSearch a fuel (e - 1) else e

/-- `⌊log₂ a⌋` for positive `a` with `2⁻¹⁵¹ ≤ a < 2¹⁵²`, which covers the
whole `f32` range. -/
def floorLog2 (a : Qv) : ℤ := expSearch a 302 151

/-- Round to the nearest integer, ties to even. -/
def rne (x : Qv) : ℤ :=
  let f := x.floor
  let rem := x.sub (Qv.ofInt f)
  if 2 * rem.num < rem.den then f
  else if rem.den < 2 * rem.num then f + 1
  else if f % 2 = 0 then f
  else f + 1

/-- IEEE-754 binary32 rounding (round to nearest, ties to even): round the
exact value to 24 significant bits.  Bit-exact for magnitudes in the normal
range; every value in the claims below lies there (or is exactly zero). -/
def fround (x : Qv) : Qv :=
  if x.num = 0 then Qv.ofInt 0
  else
    let a := x.abs
    let e := floorLog2 a
    let m := rne (a.mulPow2 (23 - e))
    let v := (Qv.ofInt m).mulPow2 (e - 23)
    if x.num < 0 then v.neg else v

/-- `f32` addition: exact sum, then rounding. -/
def fadd (a b : Qv) : Qv := fround (a.add b)
def fsub (a b : Qv) : Qv := fround (a.sub b)
def fmul (a b : Qv) : Qv := fround (a.mul b)
def frecip (a : Qv) : Qv := fround a.inv
def i32toF (n : ℤ) : Qv := fround (Qv.ofInt n)
def eps1e6 : Qv := fround ⟨1, 1000000, by norm_num⟩

/-- Rust `f32::round`: nearest integer, halfway cases away from zero. -/
def rustRound (x : Qv) : ℤ :=
  if x.num < 0 then -((x.neg.add Qv.half).floor) else (x.add Qv.half).floor

/-- Rust `as i32` on an `f32`: truncation toward zero (all values cast in
the claims are in range, so saturation never fires). -/
def truncF (x : Qv) : ℤ := Int.tdiv x.num x.den

/-- `Point<f32>` (`structs/point.rs`), components as exact rationals. -/
structure FPoint where
  q : Qv
  r : Qv
  t : Qv

/-- `impl Add for &Point<f32>`: componentwise `f32` addition. -/
def FPoint.add (a b : FPoint) : FPoint :=
  ⟨fadd a.q b.q, fadd a.r b.r, fadd a.t b.t⟩

/-- `From<Point> for Point<f32>`: `q as f32` etc. -/
def pointToF (p : Point) : FPoint := ⟨i32toF p.q, i32toF p.r, i32toF p.t⟩

/-- `Point<f32>::round` (`structs/point.rs`): cube rounding.  `s` is
computed as `-q - r` in `f32`; `q`, `r`, `s`, `t` are rounded separately and the
axis with the largest rounding error is re-derived (`q` first, then `r`). -/
def roundF (p : FPoint) : Point :=
  let s := fsub p.q.neg p.r
  let rq := rustRound p.q
  let rr := rustRound p.r
  let rs := rustRound s
  let rt := rustRound p.t
  let dq := (fsub (Qv.ofInt rq) p.q).abs
  let dr := (fsub (Qv.ofInt rr) p.r).abs
  let ds := (fsub (Qv.ofInt rs) s).abs
  let cond1 := ds.blt dq && dr.blt dq
  let cond2 := ds.blt dr
  let rqF := if cond1 then fsub (Qv.ofInt rs).neg (Qv.ofInt rr) else Qv.ofInt rq
  let rrF :=
    if cond1 then Qv.ofInt rr
    else if cond2 then fsub (Qv.ofInt rq).neg (Qv.ofInt rs)
    else Qv.ofInt rr
  ⟨truncF rqF, truncF rrF, truncF (Qv.ofInt rt)⟩

/-- `Iterator::step_size` (`structs/line/iterator.rs`): per-step `f32`
deltas `1e-6 + (end.axis - start.axis) * (1 / distance)`, where `distance`
is the height distance for planically equal endpoints and the planar cube
distance otherwise. -/
def stepSizeF (start e : Point) : FPoint :=
  let distance :=
    if start.q = e.q ∧ start.r = e.r then heightDistance start e
    else baseDistance start e
  let step := frecip (i32toF distance)
  let lerp := fun (x y : ℤ) => fadd eps1e6 (fmul (i32toF (y - x)) step)
  ⟨lerp start.q e.q, lerp start.r e.r, lerp start.t e.t⟩

/-- The mutable state of `line::Iterator` (`structs/line/iterator.rs`)
after the start cell has been returned. -/
structure LState where
  current : Point
  roundTarget : Point
  target : FPoint
  stepSize : FPoint

/-- `Iterator::new`. -/
def initState (a b : Point) : LState := ⟨a, a, pointToF a, stepSizeF a b⟩

/-- One `Iterator::next` call past the start cell: advance the float
cursor while the rounded target equals the current cell, then either jump
to the rounded target (same height) or emit one unit vertical step toward
it (`height.signum()` of the absolute height distance, as in the source). -/
def lineStep (s : LState) : LState × Point :=
  let tr :=
    if s.roundTarget = s.current then
      let t2 := FPoint.add s.target s.stepSize
      (t2, roundF t2)
    else (s.target, s.roundTarget)
  let h := heightDistance tr.2 s.current
  let current :=
    if h = 0 then tr.2
    else s.current + (⟨0, 0, h.sign⟩ : Point)
  (⟨current, tr.2, tr.1, s.stepSize⟩, current)

/-- The next `n` emitted cells. -/
def lineEmit : ℕ → LState → List Point
  | 0, _ => []
  | k + 1, s =>
    let step := lineStep s
    step.2 :: lineEmit k step.1

/-- The cells at indices `0 .. budget` of the line iterator: the start
cell followed by `budget` steps (the iterator ends immediately after the
start when `a = b`, mirroring `going_nowhere`).  This is the list that
`.enumerate().scan(Range(budget), ..)` keeps. -/
def lineTrace (a b : Point) (budget : ℕ) : List Point :=
  if a = b then [a] else a :: lineEmit budget (initState a b)

/-- `line::of` (`line/of.rs`): budget is `with_height(point, other)`. -/
def lineOf (a b : Point) : Finset Point :=
  (lineTrace a b (withHeight a b).toNat).toFinset

/-- Rust `as usize` on an `i32`: reduction modulo `2⁶⁴` (negative values
wrap to astronomically large budgets). -/
def usizeCast (r : ℤ) : ℕ := (r % 18446744073709551616).toNat

/-- `line::through` (`line/through.rs`): explicit `range` cast with
`range as usize`. -/
def lineThrough (a b : Point) (range : ℤ) : Finset Point :=
  (lineTrace a b (usizeCast range)).toFinset

/-- The exact rational value represented by a `Qv` (proof-side semantics). -/
def toQ (x : Qv) : ℚ := (x.num : ℚ) / (x.den : ℚ)

theorem Point.add_def (a b : Point) :
    a + b = ⟨a.q + b.q, a.r + b.r, a.t + b.t⟩ := rfl

theorem Point.sub_def (a b : Point) :
    a - b = ⟨a.q - b.q, a.r - b.r, a.t - b.t⟩ := rfl

theorem Point.ext_iff' {a b : Point} :
    a = b ↔ a.q = b.q ∧ a.r = b.r ∧ a.t = b.t := by
  constructor
  · rintro rfl; exact ⟨rfl, rfl, rfl⟩
  · rintro ⟨h1, h2, h3⟩; cases a; cases b; simp_all

theorem tmod_neg_eq (a : ℤ) : (-a).tmod 6 = -(a.tmod 6) := by
  have h1 := Int.tmod_add_tdiv a 6
  have h2 := Int.tmod_add_tdiv (-a) 6
  have h3 : (-a).tdiv 6 = -(a.tdiv 6) := Int.neg_tdiv a 6
  omega

/-- Rust's `times % 6` followed by `if times < 0 { times += 6 }` computes
the mathematical (euclidean) remainder modulo 6. -/
theorem rustNorm_eq (k : ℤ) :
    (if Int.tmod k 6 < 0 then Int.tmod k 6 + 6 else Int.tmod k 6) = k % 6 := by
  rcases le_or_lt 0 k with h | h
  · rw [Int.tmod_eq_emod h (by norm_num)]
    omega
  · have key : Int.tmod k 6 = -(Int.tmod (-k) 6) := by
      have := tmod_neg_eq (-k)
      simpa using this
    have h2 : Int.tmod (-k) 6 = (-k) % 6 := Int.tmod_eq_emod (by omega) (by norm_num)
    rw [key, h2]
    omega

theorem sub_antisymm (a b : Point) : a - b = negP (b - a) := by
  simp [Point.sub_def, negP, Point.ext_iff']

theorem sub_self_eq_zero (a : Point) : a - a = ⟨0, 0, 0⟩ := by
  simp [Point.sub_def, Point.ext_iff']

theorem Direction.opposite_opposite (d : Direction) : d.opposite.opposite = d := by
  cases d <;> rfl

/-- On every adjacent pair, `Direction::from` succeeds, the two travel
directions are opposite, and the points differ. -/
theorem adj_dir {a b : Point} (h : Adjacent a b) :
    ∃ d : Direction, dirFromTo a b = some d ∧
      dirFromTo b a = some d.opposite ∧ a ≠ b := by
  have key : ∀ off ∈ unitOffsets, ∃ d : Direction,
      dirFromDiff off = some d ∧ dirFromDiff (negP off) = some d.opposite ∧
        off ≠ (⟨0, 0, 0⟩ : Point) := by decide
  obtain ⟨d, h1, h2, h3⟩ := key (b - a) h
  refine ⟨d, h1, ?_, ?_⟩
  · rw [dirFromTo, sub_antisymm a b]
    exact h2
  · rintro rfl
    exact h3 (sub_self_eq_zero a)

/-- C3: the exported 3D metric is the additive (Manhattan) combination of
planar cube distance and absolute height difference, and in particular
`distance(Point(1,2,5), Point(3,4,10)) = 9`. -/
theorem distance_is_additive :
    (∀ a b : Point, withHeight a b = baseDistance a b + heightDistance a b) ∧
    withHeight ⟨1, 2, 5⟩ ⟨3, 4, 10⟩ = 9 :=
  ⟨fun _ _ => rfl, by decide⟩

/-- C9: the sum `|Δq| + |Δr| + |Δs|` (with `Δs = -Δq - Δr`) is always even,
so the truncating division by 2 inside `distance::base` is exact. -/
theorem two_mul_baseDistance (a b : Point) :
    2 * baseDistance a b = |(a - b).q| + |(a - b).r| + |(a - b).s| := by
  unfold baseDistance
  have h0 : (0:ℤ) ≤ |(a - b).q| + |(a - b).r| + |(a - b).s| := by positivity
  rw [Int.tdiv_eq_ediv h0 (by norm_num)]
  have hs : (a - b).s = -(a - b).q - (a - b).r := rfl
  rcases abs_cases (a - b).q with ⟨h1, _⟩ | ⟨h1, _⟩ <;>
    rcases abs_cases (a - b).r with ⟨h2, _⟩ | ⟨h2, _⟩ <;>
      rcases abs_cases (a - b).s with ⟨h3, _⟩ | ⟨h3, _⟩ <;> omega

/-- C8: rotation about a center is periodic with period 6 (`rotate _ _ 0`
and `rotate _ _ 6` are the identity, and `rotate _ _ k = rotate _ _ (k+6)`
for every integer `k`), it never reaches the panic arm, and it leaves the
height `t` unchanged. -/
theorem rotate_periodic (p c : Point) (k : ℤ) :
    rotate p c 0 = some p ∧ rotate p c 6 = some p ∧
    rotate p c k = rotate p c (k + 6) ∧
    ∃ x : Point, rotate p c k = some x ∧ x.t = p.t := by
  refine ⟨?_, ?_, ?_, ?_⟩
  · by_cases h : p = c
    · simp [rotate, h]
    · simp only [rotate, if_neg h]
      rw [show Int.tmod 0 6 = 0 from rfl]
      norm_num [Point.ext_iff', Point.add_def, Point.sub_def]
  · by_cases h : p = c
    · simp [rotate, h]
    · simp only [rotate, if_neg h]
      rw [show Int.tmod 6 6 = 0 from rfl]
      norm_num [Point.ext_iff', Point.add_def, Point.sub_def]
  · by_cases h : p = c
    · simp [rotate, h]
    · simp only [rotate, if_neg h]
      rw [rustNorm_eq k, rustNorm_eq (k + 6), show (k + 6) % 6 = k % 6 by omega]
  · by_cases h : p = c
    · exact ⟨p, by simp [rotate, h], rfl⟩
    · have hm : k % 6 = 0 ∨ k % 6 = 1 ∨ k % 6 = 2 ∨ k % 6 = 3 ∨ k % 6 = 4 ∨
          k % 6 = 5 := by omega
      simp only [rotate, if_neg h]
      rw [rustNorm_eq k]
      rcases hm with hm | hm | hm | hm | hm | hm <;>
        rw [hm] <;>
          exact ⟨_, rfl, by simp [Point.add_def, Point.sub_def, Point.s]⟩

theorem Point.add_zero_offset (p : Point) : p + ⟨0, 0, 0⟩ = p := by
  simp [Point.add_def, Point.ext_iff']

theorem Point.add_sub_cancel_left (p off : Point) : (p + off) - p = off := by
  simp [Point.add_def, Point.sub_def, Point.ext_iff']

theorem ReachN.mono {m : WallMap} {p : Point} {n : ℕ} {x : Point}
    (h : ReachN m p n x) : ReachN m p (n + 1) x := by
  induction h with
  | refl n => exact .refl _
  | step _ hadj hw ih => exact .step ih hadj hw

theorem offset_cases {dq ds : ℤ} (h1 : -1 ≤ dq) (h2 : dq ≤ 1)
    (h3 : -dq - 1 ≤ ds) (h4 : ds ≤ -dq + 1) (h5 : -1 ≤ ds) (h6 : ds ≤ 1) :
    (⟨dq, -dq - ds, 0⟩ : Point) = ⟨0, 0, 0⟩ ∨
      (⟨dq, -dq - ds, 0⟩ : Point) ∈ unitOffsets := by
  simp only [unitOffsets, List.mem_cons, List.not_mem_nil, or_false,
    Point.mk.injEq, and_true]
  norm_num
  omega

theorem mem_rangeBase_one {p x : Point} (h : x ∈ rangeBase p 1) :
    x = p ∨ Adjacent p x := by
  simp only [rangeBase, Finset.mem_biUnion, Finset.mem_image,
    Finset.mem_Icc] at h
  obtain ⟨dq, ⟨hdq1, hdq2⟩, ds, ⟨hds1, hds2⟩, rfl⟩ := h
  have h3 : -dq - 1 ≤ ds := le_trans (le_max_right _ _) hds1
  have h5 : (-1 : ℤ) ≤ ds := le_trans (le_max_left _ _) hds1
  have h4 : ds ≤ -dq + 1 := le_trans hds2 (min_le_right _ _)
  have h6 : ds ≤ 1 := le_trans hds2 (min_le_left _ _)
  rcases offset_cases hdq1 hdq2 h3 h4 h5 h6 with h | h
  · left
    rw [h, Point.add_zero_offset]
  · right
    unfold Adjacent
    rwa [Point.add_sub_cancel_left]

theorem rangeBase_zero (p : Point) : rangeBase p 0 = {p} := by
  apply Finset.ext
  intro x
  simp only [rangeBase, Finset.mem_biUnion, Finset.mem_image, Finset.mem_Icc,
    Finset.mem_singleton]
  constructor
  · rintro ⟨dq, ⟨h1, h2⟩, ds, ⟨h3, h4⟩, rfl⟩
    have hdq : dq = 0 := le_antisymm h2 h1
    subst hdq
    have hds : ds = 0 := by
      simp only [neg_zero, zero_sub] at h3 h4
      omega
    subst hds
    simp [Point.add_zero_offset]
  · rintro rfl
    refine ⟨0, by omega, 0, by constructor <;> simp, ?_⟩
    simp [Point.add_zero_offset]

theorem mem_rangeOf_one {p x : Point} (h : x ∈ rangeOf p 1) :
    x = p ∨ Adjacent p x := by
  simp only [rangeOf, Finset.mem_union, Finset.mem_biUnion,
    Finset.mem_Icc] at h
  rcases h with h | ⟨i, ⟨hi1, hi2⟩, h⟩
  · exact mem_rangeBase_one h
  · have hi : i = 1 := le_antisymm hi2 hi1
    subst hi
    rcases h with h | h <;>
      rw [show (1 : ℤ) - 1 = 0 by norm_num, rangeBase_zero,
        Finset.mem_singleton] at h <;> subst h
    · right
      unfold Adjacent
      have : travel p .up 1 - p = ⟨0, 0, 1⟩ := by
        simp [travel, Point.sub_def, Point.ext_iff']
      rw [this]
      decide
    · right
      unfold Adjacent
      have : travel p .down 1 - p = ⟨0, 0, -1⟩ := by
        simp [travel, Point.sub_def, Point.ext_iff']
      rw [this]
      decide

theorem hasWallBetween_self (m : WallMap) (p : Point) :
    hasWallBetween m p p = some false := by
  rw [hasWallBetween, if_pos rfl]

/-- Every `has_wall_between` query raised from a fringe point to one of its
`range::of`-neighbours is panic-free. -/
theorem rangeOf_queries_isSome (m : WallMap) (pt : Point) :
    ∀ n ∈ rangeOf pt 1, (hasWallBetween m pt n).isSome := by
  intro n hn
  rcases mem_rangeOf_one hn with rfl | hadj
  · rw [hasWallBetween_self]
    rfl
  · obtain ⟨d, h1, _, hne⟩ := adj_dir hadj
    rw [hasWallBetween, if_neg hne, h1]
    rfl

theorem floodLoop_subset {m : WallMap} {rangeFn : Point → ℤ → Finset Point} :
    ∀ {k : ℕ} {visited fringes s : Finset Point},
      floodLoop m rangeFn k visited fringes = some s →
        visited ∪ fringes ⊆ s := by
  intro k
  induction k with
  | zero =>
    intro visited fringes s h
    rw [floodLoop] at h
    injection h with h
    subst h
    exact Finset.Subset.refl _
  | succ k ih =>
    intro visited fringes s h
    rw [floodLoop] at h
    rcases hr : floodRound m rangeFn visited fringes with _ | found
    · rw [hr] at h
      exact absurd h (by simp)
    · rw [hr] at h
      have := ih h
      exact subset_trans Finset.subset_union_left this

theorem floodLoop_spec (m : WallMap) :
    ∀ (k : ℕ) (visited fringes : Finset Point) (n : ℕ),
      (∀ x ∈ visited, ReachN m p n x) → (∀ x ∈ fringes, ReachN m p n x) →
      ∃ s : Finset Point, floodLoop m rangeOf k visited fringes = some s ∧
        ∀ x ∈ s, ReachN m p (n + k) x := by
  intro k
  induction k with
  | zero =>
    intro visited fringes n hv hf
    refine ⟨visited ∪ fringes, rfl, ?_⟩
    intro x hx
    rcases Finset.mem_union.mp hx with hx | hx
    · exact hv x hx
    · exact hf x hx
  | succ k ih =>
    intro visited fringes n hv hf
    have hround : floodRound m rangeOf visited fringes =
        some (fringes.biUnion fun pt =>
          (rangeOf pt 1).filter fun nb =>
            nb ∉ visited ∧ hasWallBetween m pt nb = some false) := by
      rw [floodRound, if_pos]
      intro pt _ nb hnb _
      exact rangeOf_queries_isSome m pt nb hnb
    have hfound : ∀ x ∈ (fringes.biUnion fun pt =>
        (rangeOf pt 1).filter fun nb =>
          nb ∉ visited ∧ hasWallBetween m pt nb = some false),
        ReachN m p (n + 1) x := by
      intro x hx
      simp only [Finset.mem_biUnion, Finset.mem_filter] at hx
      obtain ⟨pt, hpt, hxr, _, hw⟩ := hx
      rcases mem_rangeOf_one hxr with rfl | hadj
      · exact (hf x hpt).mono
      · exact .step (hf pt hpt) hadj hw
    have hv' : ∀ x ∈ visited ∪ fringes, ReachN m p (n + 1) x := by
      intro x hx
      rcases Finset.mem_union.mp hx with hx | hx
      · exact (hv x hx).mono
      · exact (hf x hx).mono
    obtain ⟨s, hs, hmem⟩ := ih (visited ∪ fringes) _ (n + 1) hv' hfound
    refine ⟨s, ?_, ?_⟩
    · rw [floodLoop, hround]
      exact hs
    · intro x hx
      have := hmem x hx
      have harith : n + 1 + k = n + (k + 1) := by omega
      rwa [harith] at this

/-- C2: `flood` never panics, its result always contains the start point,
and every member is reachable from the start by a chain of at most
`radius` single-step neighbour moves, none of which crosses an edge for
which the wall map reports a wall of strength ≥ 1 between the two adjacent
cells. -/
theorem flood_sound (m : WallMap) (p : Point) (r : ℤ) :
    ∃ s : Finset Point, flood m p r = some s ∧ p ∈ s ∧
      ∀ x ∈ s, ReachN m p r.toNat x := by
  obtain ⟨s, hs, hmem⟩ :=
    floodLoop_spec (p := p) m r.toNat ∅ {p} 0 (by simp)
      (by intro x hx; rw [Finset.mem_singleton] at hx; subst hx
          exact .refl 0)
  refine ⟨s, hs, ?_, ?_⟩
  · exact floodLoop_subset hs (by simp)
  · intro x hx
    have := hmem x hx
    rwa [Nat.zero_add] at this

/-- C4 counterexample: `has_wall_between` does not return `false` on every
non-adjacent pair.  With a single east wall of strength 1 declared at
`(0,0,0)`, the query for the non-adjacent pair `(0,0,0)`, `(5,0,0)`
returns `true`, because `Direction::from` only inspects coordinate signa
and never checks adjacency. -/
theorem hasWallBetween_nonadjacent_counterexample :
    ¬ Adjacent ⟨0, 0, 0⟩ ⟨5, 0, 0⟩ ∧
    hasWallBetween
      (fun p => if p = ⟨0, 0, 0⟩ then some ⟨⟨0, 0, 0⟩, 1, 0, 0, 0⟩ else none)
      ⟨0, 0, 0⟩ ⟨5, 0, 0⟩ = some true := by
  constructor
  · decide
  · rfl

/-- C4 (amended): on every grid-adjacent pair `a`, `b` (and only there does
the kernel call it), `has_wall_between` succeeds and returns exactly
"`a` declares a wall of strength ≥ 1 facing `b`, or `b` declares a wall of
strength ≥ 1 facing `a`"; on non-adjacent pairs it may return `true` or
panic instead of returning `false`. -/
theorem hasWallBetween_adjacent (m : WallMap) (a b : Point) (d : Direction)
    (hadj : Adjacent a b) (hdir : dirFromTo a b = some d) :
    hasWallBetween m a b =
      some (mapHasWall m a d || mapHasWall m b d.opposite) := by
  obtain ⟨d', _, _, hne⟩ := adj_dir hadj
  rw [hasWallBetween, if_neg hne, hdir]

theorem hasWallBetween_adjacent_witness :
    Adjacent ⟨0, 0, 0⟩ ⟨1, 0, 0⟩ ∧
    dirFromTo ⟨0, 0, 0⟩ ⟨1, 0, 0⟩ = some .east ∧
    hasWallBetween (fun _ => none) ⟨0, 0, 0⟩ ⟨1, 0, 0⟩ =
      some (mapHasWall (fun _ => none) ⟨0, 0, 0⟩ .east ||
        mapHasWall (fun _ => none) ⟨1, 0, 0⟩ Direction.east.opposite) :=
  ⟨by decide, by decide,
    hasWallBetween_adjacent (fun _ => none) ⟨0, 0, 0⟩ ⟨1, 0, 0⟩ .east
      (by decide) (by decide)⟩

/-- C10: on every grid-adjacent pair the wall predicate is symmetric: the
direction from `b` to `a` is the opposite of the direction from `a` to
`b`, and the disjunction of the two per-cell wall checks is the same in
both orders. -/
theorem hasWallBetween_symm (m : WallMap) (a b : Point) (h : Adjacent a b) :
    hasWallBetween m a b = hasWallBetween m b a := by
  obtain ⟨d, h1, h2, hne⟩ := adj_dir h
  simp only [hasWallBetween, if_neg hne, if_neg (Ne.symm hne), h1, h2,
    Direction.opposite_opposite]
  exact congrArg some (Bool.or_comm _ _)

theorem hasWallBetween_symm_witness :
    hasWallBetween (fun _ => none) ⟨0, 0, 0⟩ ⟨1, 0, 0⟩ =
      hasWallBetween (fun _ => none) ⟨1, 0, 0⟩ ⟨0, 0, 0⟩ :=
  hasWallBetween_symm (fun _ => none) ⟨0, 0, 0⟩ ⟨1, 0, 0⟩ (by decide)

theorem travel_zero (p : Point) (d : Direction) : travel p d 0 = p := by
  cases d <;> simp [travel, Point.ext_iff']

theorem travel_travel (p : Point) (d : Direction) (u v : ℤ) :
    travel (travel p d u) d v = travel p d (u + v) := by
  cases d <;> simp [travel, Point.ext_iff', add_assoc, sub_sub]

theorem legWalk_fst (d : Direction) :
    ∀ (n : ℕ) (pos : Point),
      (legWalk pos d n).1 =
        (List.range n).map (fun i : ℕ => travel pos d (i : ℤ)) := by
  intro n
  induction n with
  | zero => intro pos; simp [legWalk]
  | succ n ih =>
    intro pos
    rw [legWalk]
    simp only []
    rw [ih, List.range_succ_eq_map, List.map_cons, List.map_map]
    congr 1
    · rw [Nat.cast_zero, travel_zero]
    · apply List.map_congr_left
      intro i _
      simp only [Function.comp_apply]
      rw [travel_travel]
      congr 1
      push_cast
      ring

theorem legWalk_snd (d : Direction) :
    ∀ (n : ℕ) (pos : Point), (legWalk pos d n).2 = travel pos d (n : ℤ) := by
  intro n
  induction n with
  | zero => intro pos; rw [legWalk, Nat.cast_zero, travel_zero]
  | succ n ih =>
    intro pos
    rw [legWalk]
    simp only []
    rw [ih, travel_travel]
    congr 1
    push_cast
    ring

/-- The six legs of the ring walk in raw coordinate form. -/
theorem ringWalk_explicit (q r t : ℤ) (n : ℕ) :
    ringWalk ⟨q, r, t⟩ n ringDirs =
      (List.range n).map (fun i : ℕ => (⟨q + i, r, t⟩ : Point)) ++
      ((List.range n).map (fun i : ℕ => (⟨q + n, r + i, t⟩ : Point)) ++
      ((List.range n).map
          (fun i : ℕ => (⟨q + n - i, r + n + i, t⟩ : Point)) ++
      ((List.range n).map
          (fun i : ℕ => (⟨q + n - n - i, r + n + n, t⟩ : Point)) ++
      ((List.range n).map
          (fun i : ℕ => (⟨q + n - n - n, r + n + n - i, t⟩ : Point)) ++
      ((List.range n).map
          (fun i : ℕ =>
            (⟨q + n - n - n + i, r + n + n - n - i, t⟩ : Point)) ++
        ([] : List Point)))))) := by
  simp only [ringDirs, ringWalk, legWalk_fst, legWalk_snd]
  rfl

theorem nodup_map_range_point {n : ℕ} {f : ℕ → Point}
    (hf : ∀ i j, i < n → j < n → f i = f j → i = j) :
    ((List.range n).map f).Nodup := by
  apply (List.nodup_range n).map_on
  intro i hi j hj h
  exact hf i j (List.mem_range.mp hi) (List.mem_range.mp hj) h

theorem disjoint_map_range_point {n : ℕ} {f g : ℕ → Point}
    (h : ∀ i j, i < n → j < n → f i ≠ g j) :
    List.Disjoint ((List.range n).map f) ((List.range n).map g) := by
  intro a haf hag
  simp only [List.mem_map, List.mem_range] at haf hag
  obtain ⟨i, hi, rfl⟩ := haf
  obtain ⟨j, hj, hgj⟩ := hag
  exact h i j hi hj hgj.symm

/-- No cell is recorded twice during the ring walk. -/
theorem ringWalk_nodup (q r t : ℤ) (n : ℕ) :
    (ringWalk ⟨q, r, t⟩ n ringDirs).Nodup := by
  rw [ringWalk_explicit]
  simp only [List.append_nil, List.nodup_append, List.disjoint_append_right]
  repeat' apply And.intro
  all_goals
    first
    | (apply nodup_map_range_point
       intro i j hi hj h
       simp only [Point.mk.injEq] at h
       omega)
    | (apply disjoint_map_range_point
       intro i j hi hj h
       simp only [Point.mk.injEq] at h
       omega)

theorem ringWalk_length (q r t : ℤ) (n : ℕ) :
    (ringWalk ⟨q, r, t⟩ n ringDirs).length = 6 * n := by
  rw [ringWalk_explicit]
  simp [List.length_append, List.length_map, List.length_range]
  ring

/-- C5 counterexample: `ringBase(p, 0)` is the empty set, not the claimed
singleton of the center: with radius 0 both nested loops of `ring::base`
run zero times, so nothing is ever inserted. -/
theorem ringBase_zero_counterexample :
    ringBase ⟨1, 2, 5⟩ 0 ≠ ({⟨1, 2, 5⟩} : Finset Point) := by decide

/-- C5 (amended): `ringBase(p, r)` contains exactly `6 * r` cells for
`r > 0` (in particular, at radius 1 exactly the six planar neighbours of
the center, walked from the cell `r` steps northwest), and `6 * r.toNat`
in general; but `ringBase(p, 0)` is the empty set, not `{p}`. -/
theorem ringBase_card (p : Point) (r : ℤ) :
    ringBase p 0 = ∅ ∧ (ringBase p r).card = 6 * r.toNat ∧
    ringBase ⟨1, 2, 5⟩ 1 =
      ({⟨1, 1, 5⟩, ⟨2, 1, 5⟩, ⟨2, 2, 5⟩, ⟨1, 3, 5⟩, ⟨0, 3, 5⟩, ⟨0, 2, 5⟩} :
        Finset Point) := by
  refine ⟨rfl, ?_, by decide⟩
  have hlist : ringBaseList p r =
      ringWalk ⟨p.q, p.r - r, p.t⟩ r.toNat ringDirs := rfl
  rw [ringBase, hlist, List.toFinset_card_of_nodup (ringWalk_nodup _ _ _ _),
    ringWalk_length]

theorem toQ_den_pos (x : Qv) : (0:ℚ) < (x.den : ℚ) := by exact_mod_cast x.den_pos

theorem toQ_ofInt (n : ℤ) : toQ (Qv.ofInt n) = (n : ℚ) := by
  simp [toQ, Qv.ofInt]

theorem toQ_add (a b : Qv) : toQ (a.add b) = toQ a + toQ b := by
  have ha := (toQ_den_pos a).ne'
  have hb := (toQ_den_pos b).ne'
  rw [toQ, toQ, toQ, Qv.add]
  push_cast
  field_simp
  try ring

theorem toQ_neg (a : Qv) : toQ a.neg = -toQ a := by
  rw [toQ, toQ, Qv.neg]
  push_cast
  ring

theorem toQ_sub (a b : Qv) : toQ (a.sub b) = toQ a - toQ b := by
  rw [Qv.sub, toQ_add, toQ_neg]
  ring

theorem toQ_abs (a : Qv) : toQ a.abs = |toQ a| := by
  rw [toQ, toQ, Qv.abs, abs_div, Int.cast_abs, abs_of_pos (toQ_den_pos a)]

theorem toQ_half : toQ Qv.half = 1 / 2 := by
  rw [toQ, Qv.half]
  norm_num

theorem blt_iff (a b : Qv) : a.blt b = true ↔ toQ a < toQ b := by
  rw [Qv.blt, decide_eq_true_eq, toQ, toQ,
    div_lt_div_iff (toQ_den_pos a) (toQ_den_pos b)]
  exact_mod_cast Iff.rfl

theorem num_eq_zero_iff (x : Qv) : x.num = 0 ↔ toQ x = 0 := by
  rw [toQ, div_eq_zero_iff]
  constructor
  · intro h; left; exact_mod_cast h
  · rintro (h | h)
    · exact_mod_cast h
    · exact absurd h (toQ_den_pos x).ne'

theorem num_neg_iff (x : Qv) : x.num < 0 ↔ toQ x < 0 := by
  rw [toQ, div_neg_iff]
  constructor
  · intro h; right; exact ⟨by exact_mod_cast h, toQ_den_pos x⟩
  · rintro (⟨h1, h2⟩ | ⟨h1, h2⟩)
    · exact absurd h2 (not_lt_of_lt (toQ_den_pos x))
    · exact_mod_cast h1

theorem toQ_eq_int_iff (x : Qv) (j : ℤ) : toQ x = (j : ℚ) ↔ x.num = j * x.den := by
  rw [toQ, div_eq_iff (toQ_den_pos x).ne']
  exact_mod_cast Iff.rfl

theorem toQ_floor (x : Qv) : ⌊toQ x⌋ = x.floor := by
  have h1 : (x.den.toNat : ℤ) = x.den := Int.toNat_of_nonneg x.den_pos.le
  rw [toQ, Qv.floor]
  rw [show ((x.den : ℚ)) = ((x.den.toNat : ℕ) : ℚ) by exact_mod_cast h1.symm,
    Rat.floor_intCast_div_natCast, h1]

theorem toQ_mulPow2 (a : Qv) (k : ℤ) : toQ (a.mulPow2 k) = toQ a * 2 ^ k := by
  rw [Qv.mulPow2]
  split
  · case isTrue h =>
    have h2 : (2:ℚ) ^ k = 2 ^ k.toNat := by
      rw [← zpow_natCast]
      congr 1
      omega
    rw [toQ, toQ, h2]
    push_cast
    ring
  · case isFalse h =>
    have h2 : (2:ℚ) ^ k = (2 ^ (-k).toNat)⁻¹ := by
      rw [← zpow_natCast, ← zpow_neg]
      congr 1
      omega
    rw [toQ, toQ, h2]
    push_cast
    ring

theorem toQ_pow2 (k : ℤ) : toQ (pow2 k) = 2 ^ k := by
  rw [pow2, toQ_mulPow2, toQ_ofInt]
  norm_num

theorem expSearch_spec :
    ∀ (fuel : ℕ) (e : ℤ) (a : Qv), 0 < toQ a → toQ a < 2 ^ (e + 1) →
      2 ^ (e - fuel) ≤ toQ a →
      2 ^ (expSearch a fuel e) ≤ toQ a ∧ toQ a < 2 ^ (expSearch a fuel e + 1) := by
  intro fuel
  induction fuel with
  | zero =>
    intro e a _ h2 h3
    rw [expSearch]
    rw [show e - (0:ℕ) = e by norm_num] at h3
    exact ⟨h3, h2⟩
  | succ fuel ih =>
    intro e a h1 h2 h3
    rw [expSearch]
    split
    · case isTrue h =>
      have hlt : toQ a < 2 ^ e := by
        rw [blt_iff, toQ_pow2] at h
        exact h
      apply ih (e - 1) a h1 (by rw [sub_add_cancel]; exact hlt)
      rw [show e - 1 - (fuel : ℤ) = e - (fuel + 1 : ℕ) by push_cast; ring]
      exact h3
    · case isFalse h =>
      have hge : 2 ^ e ≤ toQ a := by
        rw [blt_iff, toQ_pow2] at h
        exact not_lt.mp h
      exact ⟨hge, h2⟩

theorem floorLog2_spec (a : Qv) (h1 : 0 < toQ a)
    (h2 : 2 ^ (-(151:ℤ)) ≤ toQ a) (h3 : toQ a < 2 ^ (152:ℤ)) :
    2 ^ floorLog2 a ≤ toQ a ∧ toQ a < 2 ^ (floorLog2 a + 1) := by
  apply expSearch_spec 302 151 a h1 (by norm_num at h3 ⊢; exact h3)
  rw [show (151 : ℤ) - (302:ℕ) = -151 by norm_num]
  exact h2

theorem rne_int (x : Qv) (j : ℤ) (h : toQ x = (j : ℚ)) : rne x = j := by
  have hf : x.floor = j := by
    rw [← toQ_floor, h, Int.floor_intCast]
  have hnum : x.num = j * x.den := (toQ_eq_int_iff x j).mp h
  have hpos : 0 < x.den := x.den_pos
  simp only [rne, hf, Qv.sub, Qv.add, Qv.neg, Qv.ofInt, hnum]
  rw [if_pos (by ring_nf; omega)]

theorem fround_zero_of (x : Qv) (h : toQ x = 0) : fround x = Qv.ofInt 0 := by
  rw [fround, if_pos ((num_eq_zero_iff x).mpr h)]

theorem fround_exact (x : Qv) (j : ℤ) (hnz : toQ x ≠ 0)
    (h : toQ x.abs * 2 ^ ((23:ℤ) - floorLog2 x.abs) = (j : ℚ)) :
    toQ (fround x) = toQ x := by
  simp only [fround]
  rw [if_neg (fun hc => hnz ((num_eq_zero_iff x).mp hc))]
  have hm : rne (x.abs.mulPow2 (23 - floorLog2 x.abs)) = j :=
    rne_int _ j (by rw [toQ_mulPow2]; exact h)
  rw [hm]
  have hv : toQ ((Qv.ofInt j).mulPow2 (floorLog2 x.abs - 23)) = toQ x.abs := by
    rw [toQ_mulPow2, toQ_ofInt, ← h, mul_assoc,
      ← zpow_add₀ (two_ne_zero : (2:ℚ) ≠ 0)]
    norm_num
  split
  · case isTrue hneg =>
    rw [toQ_neg, hv, toQ_abs, abs_of_neg ((num_neg_iff x).mp hneg), neg_neg]
  · case isFalse hpos =>
    rw [hv, toQ_abs, abs_of_nonneg (by
      by_contra hc
      exact hpos ((num_neg_iff x).mpr (not_le.mp hc)))]

theorem fround_int_small (x : Qv) (n : ℤ) (hx : toQ x = (n : ℚ))
    (hb : |n| ≤ 2 ^ 24) : toQ (fround x) = (n : ℚ) := by
  rcases eq_or_ne n 0 with rfl | hn
  · rw [fround_zero_of x (by simpa using hx), toQ_ofInt]
  · have habs : toQ x.abs = ((|n| : ℤ) : ℚ) := by
      rw [toQ_abs, hx, Int.cast_abs]
    have h1 : (1:ℚ) ≤ toQ x.abs := by
      rw [habs]
      exact_mod_cast Int.one_le_abs hn
    have hpos : 0 < toQ x.abs := lt_of_lt_of_le one_pos h1
    have hlow : (2:ℚ) ^ (-(151:ℤ)) ≤ toQ x.abs := by
      refine le_trans ?_ h1
      calc (2:ℚ) ^ (-(151:ℤ)) ≤ (2:ℚ) ^ (0:ℤ) :=
            zpow_le_zpow_right₀ (by norm_num) (by norm_num)
        _ = 1 := zpow_zero 2
    have hb24 : toQ x.abs ≤ (2:ℚ) ^ (24:ℤ) := by
      rw [habs, show ((24:ℤ)) = ((24:ℕ):ℤ) from rfl, zpow_natCast]
      exact_mod_cast hb
    have hup : toQ x.abs < 2 ^ (152:ℤ) := by
      refine lt_of_le_of_lt hb24 ?_
      rw [show ((24:ℤ)) = ((24:ℕ):ℤ) from rfl, zpow_natCast,
        show ((152:ℤ)) = ((152:ℕ):ℤ) from rfl, zpow_natCast]
      norm_num
    obtain ⟨hbr1, hbr2⟩ := floorLog2_spec x.abs hpos hlow hup
    have hxnz : toQ x ≠ 0 := by
      rw [hx]
      exact_mod_cast hn
    have he24 : floorLog2 x.abs ≤ 24 :=
      (zpow_le_zpow_iff_right₀ (by norm_num : (1:ℚ) < 2)).mp
        (le_trans hbr1 hb24)
    by_cases he23 : floorLog2 x.abs ≤ 23
    · have hpw : (2:ℚ) ^ ((23:ℤ) - floorLog2 x.abs) =
          2 ^ ((23:ℤ) - floorLog2 x.abs).toNat := by
        rw [← zpow_natCast (2:ℚ)]
        congr 1
        omega
      have hj : toQ x.abs * 2 ^ ((23:ℤ) - floorLog2 x.abs) =
          ((|n| * 2 ^ ((23:ℤ) - floorLog2 x.abs).toNat : ℤ) : ℚ) := by
        rw [habs, hpw]
        push_cast
        ring
      rw [fround_exact x _ hxnz hj, hx]
    · have he' : floorLog2 x.abs = 24 := by omega
      have hn24 : (|n| : ℤ) = 2 ^ 24 := by
        rw [he', habs] at hbr1
        have h2 : ((2:ℤ) ^ 24 : ℚ) ≤ ((|n| : ℤ) : ℚ) := by
          refine le_trans (le_of_eq ?_) hbr1
          rw [show ((24:ℤ)) = ((24:ℕ):ℤ) from rfl, zpow_natCast]
          push_cast
          ring
        have h3 : (2:ℤ) ^ 24 ≤ |n| := by exact_mod_cast h2
        omega
      have hj : toQ x.abs * 2 ^ ((23:ℤ) - floorLog2 x.abs) =
          (((2:ℤ) ^ 23 : ℤ) : ℚ) := by
        rw [habs, hn24, he',
          show ((23:ℤ) - (24:ℤ)) = (-1:ℤ) from by norm_num, zpow_neg, zpow_one]
        push_cast
        norm_num
      rw [fround_exact x _ hxnz hj, hx]

theorem fround_output_int (x : Qv) (hnz : x.num ≠ 0)
    (he : 23 ≤ floorLog2 x.abs) : ∃ m : ℤ, toQ (fround x) = (m : ℚ) := by
  simp only [fround]
  rw [if_neg hnz]
  have hv : toQ ((Qv.ofInt (rne (x.abs.mulPow2 (23 - floorLog2 x.abs)))).mulPow2
      (floorLog2 x.abs - 23)) =
      ((rne (x.abs.mulPow2 (23 - floorLog2 x.abs)) *
        2 ^ (floorLog2 x.abs - 23).toNat : ℤ) : ℚ) := by
    rw [toQ_mulPow2, toQ_ofInt]
    push_cast
    have hpw : (2:ℚ) ^ (floorLog2 x.abs - (23:ℤ)) =
        2 ^ (floorLog2 x.abs - (23:ℤ)).toNat := by
      rw [← zpow_natCast (2:ℚ)]
      congr 1
      omega
    rw [hpw]
  split
  · exact ⟨-(rne (x.abs.mulPow2 (23 - floorLog2 x.abs)) *
      2 ^ (floorLog2 x.abs - 23).toNat),
      by rw [toQ_neg, hv]; push_cast; ring⟩
  · exact ⟨rne (x.abs.mulPow2 (23 - floorLog2 x.abs)) *
      2 ^ (floorLog2 x.abs - 23).toNat, hv⟩

theorem fround_int_integral (x : Qv) (n : ℤ) (hx : toQ x = (n : ℚ))
    (hb : |n| ≤ 2 ^ 25) : ∃ m : ℤ, toQ (fround x) = (m : ℚ) := by
  by_cases h24 : |n| ≤ 2 ^ 24
  · exact ⟨n, fround_int_small x n hx h24⟩
  · have hn : n ≠ 0 := by
      intro h
      rw [h] at h24
      norm_num at h24
    have hnz : x.num ≠ 0 := by
      intro hc
      have := (num_eq_zero_iff x).mp hc
      rw [hx] at this
      exact hn (by exact_mod_cast this)
    apply fround_output_int x hnz
    have habs : toQ x.abs = ((|n| : ℤ) : ℚ) := by
      rw [toQ_abs, hx, Int.cast_abs]
    have h1 : (1:ℚ) ≤ toQ x.abs := by
      rw [habs]
      exact_mod_cast Int.one_le_abs hn
    have hpos : 0 < toQ x.abs := lt_of_lt_of_le one_pos h1
    have hlow : (2:ℚ) ^ (-(151:ℤ)) ≤ toQ x.abs := by
      refine le_trans ?_ h1
      calc (2:ℚ) ^ (-(151:ℤ)) ≤ (2:ℚ) ^ (0:ℤ) :=
            zpow_le_zpow_right₀ (by norm_num) (by norm_num)
        _ = 1 := zpow_zero 2
    have hup : toQ x.abs < 2 ^ (152:ℤ) := by
      rw [habs, show ((152:ℤ)) = ((152:ℕ):ℤ) from rfl, zpow_natCast]
      have : ((|n| : ℤ) : ℚ) ≤ ((2:ℚ) ^ (25:ℕ)) := by exact_mod_cast hb
      refine lt_of_le_of_lt this ?_
      norm_num
    obtain ⟨hbr1, hbr2⟩ := floorLog2_spec x.abs hpos hlow hup
    have h2 : (2:ℚ) ^ (24:ℤ) < 2 ^ (floorLog2 x.abs + 1) := by
      refine lt_of_le_of_lt ?_ hbr2
      rw [habs, show ((24:ℤ)) = ((24:ℕ):ℤ) from rfl, zpow_natCast]
      exact_mod_cast (by omega : (2:ℤ) ^ 24 ≤ |n|)
    have h3 : (24:ℤ) < floorLog2 x.abs + 1 :=
      (zpow_lt_zpow_iff_right₀ (by norm_num : (1:ℚ) < 2)).mp h2
    omega

theorem rustRound_int (x : Qv) (n : ℤ) (h : toQ x = (n : ℚ)) :
    rustRound x = n := by
  have hh : toQ (x.add Qv.half) = (n : ℚ) + 1 / 2 := by
    rw [toQ_add, h, toQ_half]
  have hh2 : toQ (x.neg.add Qv.half) = ((-n : ℤ) : ℚ) + 1 / 2 := by
    rw [toQ_add, toQ_neg, h, toQ_half]
    push_cast
    ring
  simp only [rustRound]
  split
  · have hfl : (x.neg.add Qv.half).floor = -n := by
      rw [← toQ_floor, hh2, Int.floor_int_add]
      norm_num
    rw [hfl]
    ring
  · rw [← toQ_floor, hh, Int.floor_int_add]
    norm_num

theorem fsub_eq_zero_of (a b : Qv) (h : toQ a = toQ b) :
    fsub a b = Qv.ofInt 0 := by
  rw [fsub]
  exact fround_zero_of _ (by rw [toQ_sub, h, sub_self])

theorem truncF_ofInt (n : ℤ) : truncF (Qv.ofInt n) = n := by
  rw [truncF, Qv.ofInt]
  exact Int.tdiv_one n

/-- C7 (amended): the cube-rounding round-trip
`round(FloatPoint::from(p)) = p` holds for every integer point whose
coordinates all have absolute value at most `2²⁴` (the exactly
representable range of `f32` integers); beyond that the `as f32`
conversion itself loses the value. -/
theorem roundF_roundtrip (q r t : ℤ)
    (hq : |q| ≤ 2 ^ 24) (hr : |r| ≤ 2 ^ 24) (ht : |t| ≤ 2 ^ 24) :
    roundF (pointToF ⟨q, r, t⟩) = ⟨q, r, t⟩ := by
  have hqf : toQ (i32toF q) = (q : ℚ) := by
    rw [i32toF]
    exact fround_int_small _ q (toQ_ofInt q) hq
  have hrf : toQ (i32toF r) = (r : ℚ) := by
    rw [i32toF]
    exact fround_int_small _ r (toQ_ofInt r) hr
  have htf : toQ (i32toF t) = (t : ℚ) := by
    rw [i32toF]
    exact fround_int_small _ t (toQ_ofInt t) ht
  have hsv : toQ ((Qv.neg (i32toF q)).sub (i32toF r)) = ((-q - r : ℤ) : ℚ) := by
    rw [toQ_sub, toQ_neg, hqf, hrf]
    push_cast
    ring
  have hsb : |(-q - r : ℤ)| ≤ 2 ^ 25 := by
    have h1 : |(-q - r : ℤ)| = |q + r| := by
      rw [show (-q - r : ℤ) = -(q + r) by ring, abs_neg]
    have h2 := abs_add q r
    omega
  obtain ⟨m, hs⟩ : ∃ m : ℤ,
      toQ (fsub (Qv.neg (i32toF q)) (i32toF r)) = (m : ℚ) := by
    rw [fsub]
    exact fround_int_integral _ (-q - r) hsv hsb
  have hrq : rustRound (i32toF q) = q := rustRound_int _ q hqf
  have hrr : rustRound (i32toF r) = r := rustRound_int _ r hrf
  have hrt : rustRound (i32toF t) = t := rustRound_int _ t htf
  have hrs : rustRound (fsub (Qv.neg (i32toF q)) (i32toF r)) = m :=
    rustRound_int _ m hs
  simp only [roundF, pointToF]
  rw [hrq, hrr, hrt, hrs]
  rw [fsub_eq_zero_of (Qv.ofInt q) (i32toF q) (by rw [toQ_ofInt, hqf]),
    fsub_eq_zero_of (Qv.ofInt r) (i32toF r) (by rw [toQ_ofInt, hrf]),
    fsub_eq_zero_of (Qv.ofInt m) _ (by rw [toQ_ofInt, hs])]
  norm_num [Qv.abs, Qv.blt, Qv.ofInt]
  exact ⟨truncF_ofInt q, truncF_ofInt r, truncF_ofInt t⟩

/-- C1: the traced line from `(1,2,5)` to `(3,4,10)` is exactly the
claimed 10-element set; moreover the emitted sequence (budget
`with_height = 9`, hence indices `0..9`) is exactly the claimed walk in
order, its consecutive cells are pairwise grid-adjacent (every vertical
jump being decomposed into unit-height hops), and it ends at the
destination. -/
theorem lineOf_example :
    lineOf ⟨1, 2, 5⟩ ⟨3, 4, 10⟩ =
      ({⟨1, 2, 5⟩, ⟨1, 2, 6⟩, ⟨2, 2, 6⟩, ⟨2, 2, 7⟩, ⟨2, 2, 8⟩,
        ⟨2, 3, 8⟩, ⟨2, 3, 9⟩, ⟨3, 3, 9⟩, ⟨3, 3, 10⟩, ⟨3, 4, 10⟩} :
          Finset Point) ∧
    lineTrace ⟨1, 2, 5⟩ ⟨3, 4, 10⟩ (withHeight ⟨1, 2, 5⟩ ⟨3, 4, 10⟩).toNat =
      [⟨1, 2, 5⟩, ⟨1, 2, 6⟩, ⟨2, 2, 6⟩, ⟨2, 2, 7⟩, ⟨2, 2, 8⟩,
       ⟨2, 3, 8⟩, ⟨2, 3, 9⟩, ⟨3, 3, 9⟩, ⟨3, 3, 10⟩, ⟨3, 4, 10⟩] ∧
    List.Chain' Adjacent
      (lineTrace ⟨1, 2, 5⟩ ⟨3, 4, 10⟩
        (withHeight ⟨1, 2, 5⟩ ⟨3, 4, 10⟩).toNat) := by
  have h : lineTrace ⟨1, 2, 5⟩ ⟨3, 4, 10⟩
      (withHeight ⟨1, 2, 5⟩ ⟨3, 4, 10⟩).toNat =
      [⟨1, 2, 5⟩, ⟨1, 2, 6⟩, ⟨2, 2, 6⟩, ⟨2, 2, 7⟩, ⟨2, 2, 8⟩,
       ⟨2, 3, 8⟩, ⟨2, 3, 9⟩, ⟨3, 3, 9⟩, ⟨3, 3, 10⟩, ⟨3, 4, 10⟩] := by
    decide
  refine ⟨?_, h, ?_⟩
  · rw [lineOf, h]
    decide
  · rw [h]
    simp only [List.chain'_cons, List.chain'_singleton, and_true]
    decide

theorem lineEmit_succ (k : ℕ) (s : LState) :
    lineEmit (k + 1) s = (lineStep s).2 :: lineEmit k (lineStep s).1 := rfl

/-- C6 (code bug): a zero explicit range does yield the singleton start
cell, but a negative explicit range is cast with `range as usize`, which
wraps modulo `2⁶⁴`: for `range = -1` the scan budget becomes `2⁶⁴ - 1`, so
the walk from `(0,0,0)` through `(1,0,0)` also contains `(1,0,0)` (and a
vast ray beyond it), not just the start cell. -/
theorem lineThrough_nonpositive :
    lineThrough ⟨0, 0, 0⟩ ⟨1, 0, 0⟩ 0 = ({⟨0, 0, 0⟩} : Finset Point) ∧
    usizeCast (-1) = 18446744073709551615 ∧
    (⟨1, 0, 0⟩ : Point) ∈ lineThrough ⟨0, 0, 0⟩ ⟨1, 0, 0⟩ (-1) ∧
    (⟨1, 0, 0⟩ : Point) ∉ ({⟨0, 0, 0⟩} : Finset Point) := by
  refine ⟨by decide, by decide, ?_, by decide⟩
  simp only [lineThrough, List.mem_toFinset]
  rw [show usizeCast (-1) = 18446744073709551615 from by decide]
  rw [lineTrace, if_neg (by decide : ¬(⟨0, 0, 0⟩ : Point) = ⟨1, 0, 0⟩)]
  rw [show (18446744073709551615 : ℕ) = 18446744073709551614 + 1 from by
    norm_num]
  rw [lineEmit_succ]
  rw [show (lineStep (initState ⟨0, 0, 0⟩ ⟨1, 0, 0⟩)).2 = (⟨1, 0, 0⟩ : Point)
    from by decide]
  exact List.mem_cons_of_mem _ (List.mem_cons_self _ _)

/-- C7 counterexample: the round-trip does not hold for every integer
point.  `16777217 = 2²⁴ + 1` is not representable in `f32`: `q as f32`
rounds it to `2²⁴` (ties to even), so the cube rounding returns
`(16777216, 0, 0)`. -/
theorem roundTrip_counterexample :
    roundF (pointToF ⟨16777217, 0, 0⟩) ≠ ⟨16777217, 0, 0⟩ ∧
    roundF (pointToF ⟨16777217, 0, 0⟩) = ⟨16777216, 0, 0⟩ := by
  constructor
  · decide
  · decide

theorem roundF_roundtrip_witness :
    |(1:ℤ)| ≤ 2 ^ 24 ∧ |(2:ℤ)| ≤ 2 ^ 24 ∧ |(5:ℤ)| ≤ 2 ^ 24 ∧
    roundF (pointToF ⟨1, 2, 5⟩) = ⟨1, 2, 5⟩ :=
  ⟨by norm_num, by norm_num, by norm_num,
    roundF_roundtrip 1 2 5 (by norm_num) (by norm_num) (by norm_num)⟩

end HexMath
